import Mathlib

/-!
Shallow embedding of `hta/analyzers/trace_counters.py` (class `TraceCounters`).

The pandas dataframes are modelled as lists of records.  Per-rank event
tables come from the external Event Source (`Trace.get_trace`); the symbol
table and the kernel-type classifiers are external collaborators and are
modelled as parameters (an id for each of the three watched runtime call
names, a `isMemoryKernel` predicate and a `memoryKernelName` channel
labelling on name ids).  Bandwidth values are exact rationals; timestamps
are integers; durations are non-negative.  `sort_values` is modelled as a
stable sort; group keys of `groupby` are emitted in ascending order with
rows inside a group kept in dataframe order, and `NaN` group keys
(unmatched left-join rows) are dropped, as pandas does.
-/

/-- One row of a per-rank trace dataframe: the fields of the flat event
table that `TraceCounters` reads. -/
structure Event where
  index : Nat
  ts : Int
  dur : Nat
  pid : Int
  tid : Int
  stream : Int
  name : Int
  correlation : Int
  index_correlation : Int
  memory_bw_gbps : Rat
  deriving DecidableEq, Repr

/-- Insert `a` into `l` before the first element `b` with `le a b`. -/
def insertLe (le : α → α → Bool) (a : α) : List α → List α
  | [] => [a]
  | b :: bs => if le a b then a :: b :: bs else b :: insertLe le a bs

/-- Stable sort by repeated insertion; models `DataFrame.sort_values`. -/
def sortLe (le : α → α → Bool) : List α → List α
  | [] => []
  | a :: l => insertLe le a (sortLe le l)

/-- First-occurrence deduplication with an accumulator of already seen
elements. -/
def dedupAux [DecidableEq α] (seen : List α) : List α → List α
  | [] => []
  | a :: l => if a ∈ seen then dedupAux seen l else a :: dedupAux (a :: seen) l

/-- First-occurrence deduplication, used to model the distinct group keys
of a pandas `groupby`. -/
def dedupKeepFirst [DecidableEq α] (l : List α) : List α := dedupAux [] l

/-- The ids that `Trace.symbol_table.get_sym_id_map()` may resolve for the
three watched CUDA runtime call names (`None` when a name is absent). -/
structure SymIds where
  cudaLaunchKernel_id : Option Int
  cudaMemcpyAsync_id : Option Int
  cudaMemsetAsync_id : Option Int
  deriving DecidableEq, Repr

/-- Models `name == @some_id` in the pandas query: comparing against a missing id
(`None`) matches nothing. -/
def optEq : Option Int → Int → Bool
  | some i, n => n == i
  | none, _ => false

/-- The name filter of the `runtime_calls` query (lines 54-57). -/
def isRuntimeLaunchName (ids : SymIds) (e : Event) : Bool :=
  optEq ids.cudaMemsetAsync_id e.name || optEq ids.cudaMemcpyAsync_id e.name ||
    optEq ids.cudaLaunchKernel_id e.name

/-- Models `runtime_calls`: watched runtime events with `index_correlation > 0`. -/
def runtime_calls (ids : SymIds) (trace_df : List Event) : List Event :=
  trace_df.filter (fun e => isRuntimeLaunchName ids e && decide (0 < e.index_correlation))

/-- Models `gpu_kernels`: events whose `stream` is not the host-side sentinel. -/
def gpu_kernels (trace_df : List Event) : List Event :=
  trace_df.filter (fun e => e.stream != -1)

/-- A row of `merged_df`: a signed queue delta.  `stream`/`pid`/`tid` are
optional because the left join leaves them null on a correlation miss. -/
structure QDelta where
  index : Nat
  ts : Int
  queue : Int
  stream : Option Int
  pid : Option Int
  tid : Option Int
  deriving DecidableEq, Repr

/-- The left join of one runtime call against
`gpu_kernels[["stream","pid","tid","correlation"]].set_index("correlation")`:
one output row per matching GPU event, or a single null-extended row when
no GPU event shares the correlation id. -/
def joinOnCorrelation (gpu : List Event) (e : Event) : List QDelta :=
  match gpu.filter (fun g => g.correlation == e.correlation) with
  | [] => [⟨e.index, e.ts, 1, none, none, none⟩]
  | ms => ms.map (fun g => ⟨e.index, e.ts, 1, some g.stream, some g.pid, some g.tid⟩)

/-- The `queue = -1` delta contributed by a GPU kernel event. -/
def gpuDelta (e : Event) : QDelta :=
  ⟨e.index, e.ts, -1, some e.stream, some e.pid, some e.tid⟩

/-- Timestamp order on queue deltas. -/
def qTsLe (a b : QDelta) : Bool := a.ts ≤ b.ts

/-- Models `merged_df` (lines 67-80): joined runtime calls concatenated with the
GPU kernel deltas, stably sorted by timestamp. -/
def merged_df (ids : SymIds) (trace_df : List Event) : List QDelta :=
  sortLe qTsLe
    ((runtime_calls ids trace_df).flatMap (joinOnCorrelation (gpu_kernels trace_df))
      ++ (gpu_kernels trace_df).map gpuDelta)

/-- The distinct non-null stream keys of `merged_df.groupby("stream")`,
in ascending order (pandas drops null group keys and sorts keys). -/
def streamKeys (ids : SymIds) (trace_df : List Event) : List Int :=
  sortLe (fun a b : Int => a ≤ b)
    (dedupKeepFirst ((merged_df ids trace_df).filterMap (fun r => r.stream)))

/-- The rows of one `groupby("stream")` group, in sorted-dataframe order. -/
def queueGroupRows (ids : SymIds) (trace_df : List Event) (s : Int) : List QDelta :=
  (merged_df ids trace_df).filter (fun r => r.stream == some s)

/-- A row of the queue-length time series: the projection
`[["ts", "pid", "tid", "stream", "queue_length"]]` (plus the dataframe
index, which `set_index("index")` keeps on every row). -/
structure QLRow where
  index : Nat
  ts : Int
  pid : Option Int
  tid : Option Int
  stream : Option Int
  queue_length : Int
  deriving DecidableEq, Repr

/-- Models `stream_df["queue"].cumsum()` (line 85): running sum of the deltas. -/
def cumsumQ (acc : Int) : List QDelta → List QLRow
  | [] => []
  | r :: rs => ⟨r.index, r.ts, r.pid, r.tid, r.stream, acc + r.queue⟩ :: cumsumQ (acc + r.queue) rs

/-- Models `TraceCounters._get_queue_length_time_series_for_rank`, as a function
of the rank's event table: per-stream running queue length, `none` when
the groupby produced no group. -/
def queue_length_series_df (ids : SymIds) (trace_df : List Event) : Option (List QLRow) :=
  let ks := streamKeys ids trace_df
  if ks.isEmpty then none
  else some (ks.flatMap (fun s => cumsumQ 0 (queueGroupRows ids trace_df s)))

/-- The trace object consumed by `TraceCounters`: per-rank event tables
plus the external symbol table and kernel-type classifiers. -/
structure Trace where
  traces : Int → List Event
  symIds : SymIds
  isMemoryKernel : Int → Bool
  memoryKernelName : Int → String

/-- Models `TraceCounters._get_queue_length_time_series_for_rank`. -/
def queue_length_series_for_rank (t : Trace) (rank : Int) : Option (List QLRow) :=
  queue_length_series_df t.symIds (t.traces rank)

/-- Models `ranks = [0]` when the argument is `None` or empty (lines 122-123). -/
def effRanks : Option (List Int) → List Int
  | none => [0]
  | some rs => if rs.isEmpty then [0] else rs

/-- Models `TraceCounters.get_queue_length_time_series`: rank → series map, with
`None` results filtered out (lines 131-132).  The Python dict keeps one
entry per distinct rank, in first-occurrence order. -/
def get_queue_length_time_series (t : Trace) (ranks : Option (List Int)) :
    List (Int × List QLRow) :=
  (dedupKeepFirst (effRanks ranks)).filterMap
    (fun r => (queue_length_series_for_rank t r).map (fun df => (r, df)))

/-- Models `memcpy_kernels` (lines 184-189): GPU-side events classified as
memory kernels by the external classifier. -/
def memcpy_kernels (isMem : Int → Bool) (trace_df : List Event) : List Event :=
  (gpu_kernels trace_df).filter (fun e => isMem e.name)

/-- Line 196: a zero duration is rounded up to one time unit. -/
def durFix (e : Event) : Nat := if e.dur = 0 then 1 else e.dur

/-- A row of the merged bandwidth delta series
(`[["ts", "pid", "name", "memory_bw_gbps"]]`): the channel name replaces
the raw event name and the bandwidth is signed. -/
structure BWDelta where
  ts : Int
  pid : Int
  name : String
  memory_bw_gbps : Rat
  deriving DecidableEq, Repr

/-- The `membw_time_series_a` row of one memory kernel: `+bandwidth` at
the start timestamp, labelled with its channel. -/
def startDelta (ch : Int → String) (e : Event) : BWDelta :=
  ⟨e.ts, e.pid, ch e.name, e.memory_bw_gbps⟩

/-- The `membw_time_series_b` row of one memory kernel: `-bandwidth` at
`ts + dur` (after the zero-duration fix). -/
def endDelta (ch : Int → String) (e : Event) : BWDelta :=
  ⟨e.ts + durFix e, e.pid, ch e.name, -e.memory_bw_gbps⟩

/-- Timestamp order on bandwidth deltas. -/
def bwTsLe (a b : BWDelta) : Bool := a.ts ≤ b.ts

/-- Models `membw_time_series` (lines 198-211): start deltas concatenated with
end deltas, stably sorted by timestamp. -/
def membw_time_series (isMem : Int → Bool) (ch : Int → String) (trace_df : List Event) :
    List BWDelta :=
  sortLe bwTsLe
    ((memcpy_kernels isMem trace_df).map (startDelta ch)
      ++ (memcpy_kernels isMem trace_df).map (endDelta ch))

/-- Ascending order on channel names, for `groupby("name")` keys. -/
def stringLe (a b : String) : Bool := a < b || a == b

/-- The distinct channel keys of `membw_time_series.groupby("name")`. -/
def channelKeys (isMem : Int → Bool) (ch : Int → String) (trace_df : List Event) : List String :=
  sortLe stringLe (dedupKeepFirst ((membw_time_series isMem ch trace_df).map (fun r => r.name)))

/-- The rows of one `groupby("name")` group, in sorted-dataframe order. -/
def bwGroupRows (isMem : Int → Bool) (ch : Int → String) (trace_df : List Event) (c : String) :
    List BWDelta :=
  (membw_time_series isMem ch trace_df).filter (fun r => r.name == c)

/-- A row of the memory-bandwidth time series: the projection
`[["ts", "pid", "name", "memory_bw_gbps"]]` of line 221. -/
structure BWRow where
  ts : Int
  pid : Int
  name : String
  memory_bw_gbps : Rat
  deriving DecidableEq, Repr

/-- Models `membw_df.memory_bw_gbps.cumsum()` (line 215). -/
def cumsumBW (acc : Rat) : List BWDelta → List BWRow
  | [] => []
  | r :: rs =>
    ⟨r.ts, r.pid, r.name, acc + r.memory_bw_gbps⟩ :: cumsumBW (acc + r.memory_bw_gbps) rs

/-- Models `TraceCounters._get_memory_bw_time_series_for_rank`, as a function of
the rank's event table. -/
def memory_bw_series_df (isMem : Int → Bool) (ch : Int → String) (trace_df : List Event) :
    Option (List BWRow) :=
  let ks := channelKeys isMem ch trace_df
  if ks.isEmpty then none
  else some (ks.flatMap (fun c => cumsumBW 0 (bwGroupRows isMem ch trace_df c)))

/-- Models `TraceCounters._get_memory_bw_time_series_for_rank`. -/
def memory_bw_series_for_rank (t : Trace) (rank : Int) : Option (List BWRow) :=
  memory_bw_series_df t.isMemoryKernel t.memoryKernelName (t.traces rank)

/-- Models `TraceCounters.get_memory_bw_time_series` (lines 244-253). -/
def get_memory_bw_time_series (t : Trace) (ranks : Option (List Int)) :
    List (Int × List BWRow) :=
  (dedupKeepFirst (effRanks ranks)).filterMap
    (fun r => (memory_bw_series_for_rank t r).map (fun df => (r, df)))

/-- The output columns of the queue-length series (line 89). -/
def queue_length_output_columns : List String :=
  ["ts", "pid", "tid", "stream", "queue_length"]

/-- The output columns of the memory-bandwidth series (line 221). -/
def memory_bw_output_columns : List String :=
  ["ts", "pid", "name", "memory_bw_gbps"]

/-- One row of the `groupby(["rank", "name"]).describe()` summary table.
`describe` reports count, mean, std, min, 25%, 50%, 75% and max; the
standard deviation is the square root of the sample variance, which is
irrational in general, so the row stores the sample variance `var` (with
`std = sqrt var`); pandas reports `NaN` std for a single observation,
modelled by rational division by zero yielding `var = 0`. -/
structure SummaryRow where
  rank : Int
  name : String
  count : Nat
  mean : Rat
  var : Rat
  min : Rat
  q25 : Rat
  q50 : Rat
  q75 : Rat
  max : Rat
  deriving DecidableEq, Repr

/-- Minimum of a value column (0 on an empty column, which `describe`
reports as `NaN`). -/
def ratMinList : List Rat → Rat
  | [] => 0
  | v :: vs => vs.foldl min v

/-- Maximum of a value column. -/
def ratMaxList : List Rat → Rat
  | [] => 0
  | v :: vs => vs.foldl max v

/-- Percentile with linear interpolation, as `describe` computes it:
position `q * (n - 1)` in the sorted values, interpolating between the
two neighbouring order statistics. -/
def percentile (q : Rat) (vs : List Rat) : Rat :=
  let sv := sortLe (fun a b : Rat => a ≤ b) vs
  let pos : Rat := q * ((sv.length : Rat) - 1)
  let i : Nat := pos.floor.toNat
  let vi := sv.getD i 0
  let vj := sv.getD (i + 1) 0
  vi + (vj - vi) * (pos - (i : Rat))

/-- Models `describe()` over one value column, keyed by `(rank, name)`. -/
def mkSummaryRow (rank : Int) (c : String) (vs : List Rat) : SummaryRow :=
  let n := vs.length
  let mean := vs.sum / (n : Rat)
  ⟨rank, c, n, mean, ((vs.map (fun v => (v - mean) ^ 2)).sum) / ((n : Rat) - 1),
    ratMinList vs, percentile (1 / 4) vs, percentile (1 / 2) vs, percentile (3 / 4) vs,
    ratMaxList vs⟩

/-- One rank's block of `get_memory_bw_summary` (lines 280-284): drop the
non-positive rows, then `groupby(["rank", "name"]).describe()` over the
`memory_bw_gbps` column. -/
def memory_bw_summary_for_rank (rank : Int) (df : List BWRow) : List SummaryRow :=
  let pos := df.filter (fun r => decide (0 < r.memory_bw_gbps))
  (sortLe stringLe (dedupKeepFirst (pos.map (fun r => r.name)))).map
    (fun c => mkSummaryRow rank c ((pos.filter (fun r => r.name == c)).map
      (fun r => r.memory_bw_gbps)))

/-- Models `TraceCounters.get_memory_bw_summary` (lines 274-286): concatenation
of the per-rank summary blocks, `None` when no rank produced a series. -/
def get_memory_bw_summary (t : Trace) (ranks : Option (List Int)) :
    Option (List SummaryRow) :=
  let m := get_memory_bw_time_series t ranks
  if m.isEmpty then none
  else some (m.flatMap (fun p => memory_bw_summary_for_rank p.1 p.2))

/-- Scenario A, host-side enqueue 1: kernel launch at ts 10, correlation 1. -/
def evA1 : Event := ⟨1, 10, 0, 1, 2, -1, 100, 1, 3, 0⟩

/-- Scenario A, host-side enqueue 2: kernel launch at ts 20, correlation 2. -/
def evA2 : Event := ⟨2, 20, 0, 1, 2, -1, 100, 2, 4, 0⟩

/-- Scenario A, device-side kernel 1: ts 15, stream 0, correlation 1. -/
def evA3 : Event := ⟨3, 15, 1, 7, 0, 0, 200, 1, 1, 0⟩

/-- Scenario A, device-side kernel 2: ts 25, stream 0, correlation 2. -/
def evA4 : Event := ⟨4, 25, 1, 7, 0, 0, 200, 2, 2, 0⟩

/-- The symbol ids of the scenario traces: `cudaLaunchKernel` resolves to
id 100, the other two watched names are absent. -/
def scenarioIds : SymIds := ⟨some 100, none, none⟩

/-- Scenario A trace: two kernel launches at ts 10 and ts 20, correlated
to device kernels at ts 15 and ts 25 on stream 0, all on rank 0. -/
def scenarioATrace : Trace :=
  ⟨fun r => if r = 0 then [evA1, evA2, evA3, evA4] else [],
    scenarioIds, fun _ => false, fun _ => ""⟩

/-- Scenario C, transfer 1: [0, 10] at 4.0 GB/s. -/
def evC1 : Event := ⟨1, 0, 10, 7, 0, 0, 300, 0, 0, 4⟩

/-- Scenario C, transfer 2: [5, 15] at 6.0 GB/s. -/
def evC2 : Event := ⟨2, 5, 10, 7, 0, 0, 300, 0, 0, 6⟩

/-- Scenario C trace: two overlapping transfers on one channel, rank 0;
name id 300 classifies as a memory kernel on channel `MemcpyHtoD`. -/
def scenarioCTrace : Trace :=
  ⟨fun r => if r = 0 then [evC1, evC2] else [],
    ⟨none, none, none⟩, fun n => n == 300, fun _ => "MemcpyHtoD"⟩

/-- A trace whose only event is a device-side kernel (stream 0, ts 5)
with no matching host-side enqueue call. -/
def orphanKernelTrace : Trace :=
  ⟨fun r => if r = 0 then [⟨1, 5, 1, 7, 0, 0, 200, 9, 0, 0⟩] else [],
    scenarioIds, fun _ => false, fun _ => ""⟩

/-- The value of a right-continuous step-function series at time `τ`: the
accumulated value of the last row whose timestamp is at most `τ` (0 before
the first row). -/
def bwValueAt (rows : List BWRow) (τ : Int) : Rat :=
  ((rows.filter (fun r => decide (r.ts ≤ τ))).getLast?).elim 0 (fun r => r.memory_bw_gbps)

/-- The sum of the bandwidths of the memory transfers in flight on channel
`c` at time `τ`: transfers begun at or before `τ` and not yet ended
(durations fixed up as the builder does). -/
def inFlightBW (isMem : Int → Bool) (ch : Int → String) (trace_df : List Event)
    (c : String) (τ : Int) : Rat :=
  (((memcpy_kernels isMem trace_df).filter
      (fun e => ch e.name == c && decide (e.ts ≤ τ) && decide (τ < e.ts + durFix e))).map
    (fun e => e.memory_bw_gbps)).sum

theorem insertLe_perm (le : α → α → Bool) (a : α) (l : List α) :
    (insertLe le a l).Perm (a :: l) := by
  induction l with
  | nil => exact List.Perm.refl _
  | cons b bs ih =>
    simp only [insertLe]
    split
    · exact List.Perm.refl _
    · exact (List.Perm.cons b ih).trans (List.Perm.swap a b bs)

theorem sortLe_perm (le : α → α → Bool) (l : List α) : (sortLe le l).Perm l := by
  induction l with
  | nil => exact List.Perm.refl _
  | cons a l ih => exact (insertLe_perm le a (sortLe le l)).trans (List.Perm.cons a ih)

theorem mem_insertLe {le : α → α → Bool} {a x : α} {l : List α} :
    x ∈ insertLe le a l ↔ x = a ∨ x ∈ l := by
  rw [(insertLe_perm le a l).mem_iff, List.mem_cons]

theorem insertLe_eq_cons {le : α → α → Bool} {a : α} {l : List α}
    (h : ∀ c ∈ l, le a c = true) : insertLe le a l = a :: l := by
  cases l with
  | nil => rfl
  | cons b bs => simp only [insertLe, h b (List.mem_cons_self b bs), if_true]

theorem pairwise_insertLe {le : α → α → Bool}
    (htot : ∀ a b, le a b = true ∨ le b a = true)
    (htrans : ∀ a b c, le a b = true → le b c = true → le a c = true)
    (a : α) {l : List α} (h : l.Pairwise (fun x y => le x y = true)) :
    (insertLe le a l).Pairwise (fun x y => le x y = true) := by
  induction l with
  | nil => simp [insertLe]
  | cons b bs ih =>
    rw [List.pairwise_cons] at h
    obtain ⟨hb, hbs⟩ := h
    simp only [insertLe]
    split
    next hab =>
      rw [List.pairwise_cons]
      refine ⟨?_, List.pairwise_cons.mpr ⟨hb, hbs⟩⟩
      intro x hx
      rcases List.mem_cons.mp hx with rfl | hx
      · exact hab
      · exact htrans a b x hab (hb x hx)
    next hab =>
      rw [List.pairwise_cons]
      refine ⟨?_, ih hbs⟩
      intro x hx
      rcases mem_insertLe.mp hx with hxa | hx
      · rw [hxa]
        rcases htot a b with h1 | h1
        · exact absurd h1 hab
        · exact h1
      · exact hb x hx

theorem pairwise_sortLe {le : α → α → Bool}
    (htot : ∀ a b, le a b = true ∨ le b a = true)
    (htrans : ∀ a b c, le a b = true → le b c = true → le a c = true)
    (l : List α) : (sortLe le l).Pairwise (fun x y => le x y = true) := by
  induction l with
  | nil => simp [sortLe]
  | cons a l ih => exact pairwise_insertLe htot htrans a ih

theorem filter_insertLe {le : α → α → Bool}
    (htrans : ∀ a b c, le a b = true → le b c = true → le a c = true)
    (p : α → Bool) (a : α) {l : List α}
    (h : l.Pairwise (fun x y => le x y = true)) :
    (insertLe le a l).filter p =
      if p a then insertLe le a (l.filter p) else l.filter p := by
  induction l with
  | nil => cases hpa : p a <;> simp [insertLe, List.filter, hpa]
  | cons b bs ih =>
    rw [List.pairwise_cons] at h
    obtain ⟨hb, hbs⟩ := h
    simp only [insertLe]
    split
    next hab =>
      have hall : ∀ c ∈ bs.filter p, le a c = true := by
        intro c hc
        exact htrans a b c hab (hb c (List.mem_of_mem_filter hc))
      cases hpa : p a
      · simp [List.filter_cons, hpa]
      · cases hpb : p b
        · simp only [List.filter_cons, hpa, hpb, if_true, if_false, cond_true, cond_false]
          simp only [Bool.false_eq_true, if_false, if_true]
          rw [insertLe_eq_cons hall]
        · simp only [List.filter_cons, hpa, hpb, if_true]
          rw [insertLe_eq_cons]
          intro c hc
          rcases List.mem_cons.mp hc with hcb | hc2
          · rw [hcb]; exact hab
          · exact hall c hc2
    next hab =>
      have hab2 : le a b = false := by revert hab; cases le a b <;> simp
      cases hpa : p a <;> cases hpb : p b <;>
        simp [List.filter_cons, hpa, hpb, ih hbs, insertLe, hab2]

theorem filter_sortLe {le : α → α → Bool}
    (htot : ∀ a b, le a b = true ∨ le b a = true)
    (htrans : ∀ a b c, le a b = true → le b c = true → le a c = true)
    (p : α → Bool) (l : List α) :
    (sortLe le l).filter p = sortLe le (l.filter p) := by
  induction l with
  | nil => rfl
  | cons a l ih =>
    have hs := pairwise_sortLe htot htrans l
    rw [sortLe, filter_insertLe htrans p a hs, ih]
    cases hpa : p a <;> simp [List.filter_cons, hpa, sortLe]

theorem mem_dedupAux [DecidableEq α] {x : α} (seen : List α) (l : List α) :
    x ∈ dedupAux seen l ↔ x ∈ l ∧ x ∉ seen := by
  induction l generalizing seen with
  | nil => simp [dedupAux]
  | cons a l ih =>
    simp only [dedupAux]
    split
    next ha =>
      rw [ih]
      simp only [List.mem_cons]
      constructor
      · rintro ⟨h1, h2⟩
        exact ⟨Or.inr h1, h2⟩
      · rintro ⟨h1 | h1, h2⟩
        · subst h1; exact absurd ha h2
        · exact ⟨h1, h2⟩
    next ha =>
      simp only [List.mem_cons, ih]
      constructor
      · rintro (rfl | ⟨h1, h2⟩)
        · exact ⟨Or.inl rfl, ha⟩
        · exact ⟨Or.inr h1, fun hx => h2 (Or.inr hx)⟩
      · rintro ⟨h1 | h1, h2⟩
        · exact Or.inl h1
        · by_cases hxa : x = a
          · exact Or.inl hxa
          · exact Or.inr ⟨h1, fun hc => hc.elim hxa h2⟩

theorem nodup_dedupAux [DecidableEq α] (seen : List α) (l : List α) :
    (dedupAux seen l).Nodup := by
  induction l generalizing seen with
  | nil => simp [dedupAux]
  | cons a l ih =>
    simp only [dedupAux]
    split
    · exact ih seen
    · refine List.nodup_cons.mpr ⟨?_, ih (a :: seen)⟩
      intro hmem
      exact ((mem_dedupAux (a :: seen) l).mp hmem).2 (List.mem_cons_self a seen)

theorem mem_dedupKeepFirst [DecidableEq α] {x : α} (l : List α) :
    x ∈ dedupKeepFirst l ↔ x ∈ l := by
  simp [dedupKeepFirst, mem_dedupAux]

theorem nodup_dedupKeepFirst [DecidableEq α] (l : List α) : (dedupKeepFirst l).Nodup :=
  nodup_dedupAux [] l

theorem intLe_total : ∀ a b : Int, (decide (a ≤ b)) = true ∨ (decide (b ≤ a)) = true := by
  intro a b
  rcases le_total a b with h | h
  · exact Or.inl (decide_eq_true h)
  · exact Or.inr (decide_eq_true h)

theorem intLe_trans : ∀ a b c : Int,
    (decide (a ≤ b)) = true → (decide (b ≤ c)) = true → (decide (a ≤ c)) = true := by
  intro a b c h1 h2
  exact decide_eq_true (le_trans (of_decide_eq_true h1) (of_decide_eq_true h2))

theorem sortLe_int_eq_of_mem_iff {l₁ l₂ : List Int} (h₁ : l₁.Nodup) (h₂ : l₂.Nodup)
    (hmem : ∀ a, a ∈ l₁ ↔ a ∈ l₂) :
    sortLe (fun a b : Int => a ≤ b) l₁ = sortLe (fun a b : Int => a ≤ b) l₂ := by
  haveI : IsAntisymm Int (· ≤ ·) := ⟨fun _ _ u v => le_antisymm u v⟩
  have hp : l₁.Perm l₂ := (List.perm_ext_iff_of_nodup h₁ h₂).mpr hmem
  have p1 := sortLe_perm (fun a b : Int => a ≤ b) l₁
  have p2 := sortLe_perm (fun a b : Int => a ≤ b) l₂
  refine List.eq_of_perm_of_sorted (r := (· ≤ ·)) (p1.trans (hp.trans p2.symm)) ?_ ?_
  · exact (pairwise_sortLe intLe_total intLe_trans l₁).imp (fun h => of_decide_eq_true h)
  · exact (pairwise_sortLe intLe_total intLe_trans l₂).imp (fun h => of_decide_eq_true h)

theorem qTsLe_total : ∀ a b : QDelta, qTsLe a b = true ∨ qTsLe b a = true := by
  intro a b
  unfold qTsLe
  exact intLe_total a.ts b.ts

theorem qTsLe_trans : ∀ a b c : QDelta,
    qTsLe a b = true → qTsLe b c = true → qTsLe a c = true := by
  intro a b c
  unfold qTsLe
  exact intLe_trans a.ts b.ts c.ts

theorem bwTsLe_total : ∀ a b : BWDelta, bwTsLe a b = true ∨ bwTsLe b a = true := by
  intro a b
  unfold bwTsLe
  exact intLe_total a.ts b.ts

theorem bwTsLe_trans : ∀ a b c : BWDelta,
    bwTsLe a b = true → bwTsLe b c = true → bwTsLe a c = true := by
  intro a b c
  unfold bwTsLe
  exact intLe_trans a.ts b.ts c.ts

theorem cumsumQ_getElem (acc : Int) (l : List QDelta) (i : Nat) :
    ((cumsumQ acc l)[i]?).map (fun r => r.queue_length)
      = (l[i]?).map (fun _ => acc + ((l.take (i + 1)).map (fun r => r.queue)).sum) := by
  induction l generalizing acc i with
  | nil => simp [cumsumQ]
  | cons r rs ih =>
    cases i with
    | zero => simp [cumsumQ]
    | succ n =>
      simp only [cumsumQ, List.getElem?_cons_succ, List.take_succ_cons, List.map_cons,
        List.sum_cons]
      rw [ih]
      cases rs[n]? <;> simp [add_assoc]

theorem cumsumQ_length (acc : Int) (l : List QDelta) :
    (cumsumQ acc l).length = l.length := by
  induction l generalizing acc with
  | nil => rfl
  | cons r rs ih => simp [cumsumQ, ih]

theorem cumsumQ_getLast (acc : Int) (l : List QDelta) :
    ((cumsumQ acc l).getLast?).map (fun r => r.queue_length)
      = (l.getLast?).map (fun _ => acc + (l.map (fun r => r.queue)).sum) := by
  cases l with
  | nil => rfl
  | cons r rs =>
    rw [List.getLast?_eq_getElem?, List.getLast?_eq_getElem?, cumsumQ_length,
      cumsumQ_getElem]
    have hlen : (r :: rs).length - 1 + 1 = (r :: rs).length := by
      simp
    rw [hlen, List.take_length]

theorem cumsumQ_map_ts (acc : Int) (l : List QDelta) :
    (cumsumQ acc l).map (fun r => r.ts) = l.map (fun r => r.ts) := by
  induction l generalizing acc with
  | nil => rfl
  | cons r rs ih => simp [cumsumQ, ih]

theorem cumsumBW_length (acc : Rat) (l : List BWDelta) :
    (cumsumBW acc l).length = l.length := by
  induction l generalizing acc with
  | nil => rfl
  | cons r rs ih => simp [cumsumBW, ih]

theorem cumsumBW_getElem (acc : Rat) (l : List BWDelta) (i : Nat) :
    ((cumsumBW acc l)[i]?).map (fun r => r.memory_bw_gbps)
      = (l[i]?).map (fun _ => acc + ((l.take (i + 1)).map (fun r => r.memory_bw_gbps)).sum) := by
  induction l generalizing acc i with
  | nil => simp [cumsumBW]
  | cons r rs ih =>
    cases i with
    | zero => simp [cumsumBW]
    | succ n =>
      simp only [cumsumBW, List.getElem?_cons_succ, List.take_succ_cons, List.map_cons,
        List.sum_cons]
      rw [ih]
      cases rs[n]? <;> simp [add_assoc]

theorem cumsumBW_map_ts (acc : Rat) (l : List BWDelta) :
    (cumsumBW acc l).map (fun r => r.ts) = l.map (fun r => r.ts) := by
  induction l generalizing acc with
  | nil => rfl
  | cons r rs ih => simp [cumsumBW, ih]

theorem cumsumBW_getLast (acc : Rat) (l : List BWDelta) :
    ((cumsumBW acc l).getLast?).map (fun r => r.memory_bw_gbps)
      = (l.getLast?).map (fun _ => acc + (l.map (fun r => r.memory_bw_gbps)).sum) := by
  cases l with
  | nil => rfl
  | cons r rs =>
    rw [List.getLast?_eq_getElem?, List.getLast?_eq_getElem?, cumsumBW_length,
      cumsumBW_getElem]
    have hlen : (r :: rs).length - 1 + 1 = (r :: rs).length := by
      simp
    rw [hlen, List.take_length]

theorem filter_cumsumBW_le (τ : Int) (acc : Rat) {l : List BWDelta}
    (h : l.Pairwise (fun x y => bwTsLe x y = true)) :
    (cumsumBW acc l).filter (fun r => decide (r.ts ≤ τ))
      = cumsumBW acc (l.filter (fun d => decide (d.ts ≤ τ))) := by
  induction l generalizing acc with
  | nil => rfl
  | cons d ds ih =>
    rw [List.pairwise_cons] at h
    obtain ⟨hd, hds⟩ := h
    by_cases hdt : d.ts ≤ τ
    · simp only [cumsumBW, List.filter_cons, decide_eq_true_eq]
      rw [if_pos hdt, if_pos hdt, ih _ hds]
      rfl
    · have hall : ∀ d2 ∈ ds, ¬(d2.ts ≤ τ) := by
        intro d2 hd2 hle
        exact hdt (le_trans (of_decide_eq_true (hd d2 hd2)) hle)
      have hnil : ds.filter (fun d2 => decide (d2.ts ≤ τ)) = [] := by
        rw [List.filter_eq_nil_iff]
        intro d2 hd2
        simp [hall d2 hd2]
      have hnil2 : (cumsumBW (acc + d.memory_bw_gbps) ds).filter
          (fun r => decide (r.ts ≤ τ)) = [] := by
        rw [List.filter_eq_nil_iff]
        intro r hr
        have : r.ts ∈ ds.map (fun d2 => d2.ts) := by
          rw [← cumsumBW_map_ts (acc + d.memory_bw_gbps)]
          exact List.mem_map_of_mem _ hr
        obtain ⟨d2, hd2, hts⟩ := List.mem_map.mp this
        simp [← hts, hall d2 hd2]
      simp only [cumsumBW, List.filter_cons, decide_eq_true_eq]
      rw [if_neg hdt, if_neg hdt, hnil, hnil2]
      rfl

/-- C1: in every stream group of the queue-length builder's output the
`queue_length` column is the running prefix sum of the `queue` delta
column in the group's (ascending-timestamp) row order, the value at the
last row is the sum of all deltas of the group, and on the Scenario A
trace the stream-0 series is exactly (10,1), (15,0), (20,1), (25,0). -/
theorem queue_length_is_prefix_sum :
    (∀ (ids : SymIds) (trace_df : List Event) (s : Int) (i : Nat),
      ((cumsumQ 0 (queueGroupRows ids trace_df s))[i]?).map (fun r => r.queue_length)
        = ((queueGroupRows ids trace_df s)[i]?).map
            (fun _ => (((queueGroupRows ids trace_df s).take (i + 1)).map
              (fun r => r.queue)).sum))
    ∧ (∀ (ids : SymIds) (trace_df : List Event) (s : Int),
      ((cumsumQ 0 (queueGroupRows ids trace_df s)).getLast?).map (fun r => r.queue_length)
        = ((queueGroupRows ids trace_df s).getLast?).map
            (fun _ => ((queueGroupRows ids trace_df s).map (fun r => r.queue)).sum))
    ∧ (queue_length_series_for_rank scenarioATrace 0).map
        (List.map (fun r => (r.ts, r.queue_length)))
        = some [(10, 1), (15, 0), (20, 1), (25, 0)] := by
  refine ⟨?_, ?_, by decide⟩
  · intro ids trace_df s i
    rw [cumsumQ_getElem]
    simp only [zero_add]
  · intro ids trace_df s
    rw [cumsumQ_getLast]
    simp only [zero_add]

/-- C9: in both builders, the rows of every group of the output time
series are sorted by timestamp non-decreasing. -/
theorem group_rows_sorted_by_ts :
    (∀ (ids : SymIds) (trace_df : List Event) (s : Int),
      (cumsumQ 0 (queueGroupRows ids trace_df s)).Pairwise (fun a b => a.ts ≤ b.ts))
    ∧ (∀ (isMem : Int → Bool) (ch : Int → String) (trace_df : List Event) (c : String),
      (cumsumBW 0 (bwGroupRows isMem ch trace_df c)).Pairwise (fun a b => a.ts ≤ b.ts)) := by
  constructor
  · intro ids trace_df s
    have h1 : (merged_df ids trace_df).Pairwise (fun x y => qTsLe x y = true) :=
      pairwise_sortLe qTsLe_total qTsLe_trans _
    have h2 : (queueGroupRows ids trace_df s).Pairwise (fun x y => qTsLe x y = true) :=
      h1.sublist (List.filter_sublist _)
    have h3 : ((queueGroupRows ids trace_df s).map (fun r => r.ts)).Pairwise (· ≤ ·) :=
      List.pairwise_map.mpr (h2.imp (fun h => of_decide_eq_true h))
    have h4 := cumsumQ_map_ts 0 (queueGroupRows ids trace_df s)
    rw [← h4] at h3
    exact List.pairwise_map.mp h3
  · intro isMem ch trace_df c
    have h1 : (membw_time_series isMem ch trace_df).Pairwise (fun x y => bwTsLe x y = true) :=
      pairwise_sortLe bwTsLe_total bwTsLe_trans _
    have h2 : (bwGroupRows isMem ch trace_df c).Pairwise (fun x y => bwTsLe x y = true) :=
      h1.sublist (List.filter_sublist _)
    have h3 : ((bwGroupRows isMem ch trace_df c).map (fun r => r.ts)).Pairwise (· ≤ ·) :=
      List.pairwise_map.mpr (h2.imp (fun h => of_decide_eq_true h))
    have h4 := cumsumBW_map_ts 0 (bwGroupRows isMem ch trace_df c)
    rw [← h4] at h3
    exact List.pairwise_map.mp h3

/-- C10: the queue-length builder does not keep the accumulated value
non-negative: on a trace holding one device-side kernel whose correlation
id matches no enqueue call, the output contains a row with
`queue_length = -1`. -/
theorem queue_length_can_be_negative :
    ∃ rows, queue_length_series_for_rank orphanKernelTrace 0 = some rows
      ∧ ∃ r ∈ rows, r.queue_length = -1 := by
  refine ⟨[⟨1, 5, some 7, some 0, some 0, -1⟩], by decide,
    ⟨⟨1, 5, some 7, some 0, some 0, -1⟩, by decide, rfl⟩⟩

/-- C6 counterexample: the memory-bandwidth series does not carry a
thread id: `tid` is not among the columns the builder projects. -/
theorem membw_columns_no_tid : "tid" ∉ memory_bw_output_columns := by
  decide

/-- C6 (amended): queue-length rows carry all five fields
ts/pid/tid/stream/queue_length, while memory-bandwidth rows carry only
ts/pid/channel-name/memory_bw_gbps — no thread id. -/
theorem series_row_fields :
    "tid" ∈ queue_length_output_columns
    ∧ "ts" ∈ memory_bw_output_columns ∧ "pid" ∈ memory_bw_output_columns
    ∧ "name" ∈ memory_bw_output_columns ∧ "memory_bw_gbps" ∈ memory_bw_output_columns
    ∧ (∀ r : QLRow, r = ⟨r.index, r.ts, r.pid, r.tid, r.stream, r.queue_length⟩)
    ∧ (∀ r : BWRow, r = ⟨r.ts, r.pid, r.name, r.memory_bw_gbps⟩) := by
  exact ⟨by decide, by decide, by decide, by decide, by decide,
    fun r => rfl, fun r => rfl⟩

theorem mem_rank_result_map {β : Type} (f : Int → Option β) (l : List Int) (r : Int) :
    (∃ df, (r, df) ∈ l.filterMap (fun a => (f a).map (fun d => (a, d))))
      ↔ (r ∈ l ∧ f r ≠ none) := by
  constructor
  · rintro ⟨df, hdf⟩
    obtain ⟨a, ha, hfa⟩ := List.mem_filterMap.mp hdf
    cases hfa2 : f a with
    | none => rw [hfa2] at hfa; simp at hfa
    | some d =>
      rw [hfa2] at hfa
      simp only [Option.map_some', Option.some_inj, Prod.mk.injEq] at hfa
      obtain ⟨h1, h2⟩ := hfa
      subst h1
      exact ⟨ha, by simp [hfa2]⟩
  · rintro ⟨hr, hf⟩
    cases hfa : f r with
    | none => exact absurd hfa hf
    | some d => exact ⟨d, List.mem_filterMap.mpr ⟨r, hr, by simp [hfa]⟩⟩

/-- C7: a rank appears in the rank → series map returned by
`get_queue_length_time_series` or `get_memory_bw_time_series` exactly when
it is among the requested ranks and its per-rank builder produced a
result; a rank whose builder produced nothing is simply absent. -/
theorem rank_absent_when_no_result :
    ∀ (t : Trace) (ranks : Option (List Int)) (r : Int),
      ((∃ df, (r, df) ∈ get_queue_length_time_series t ranks)
        ↔ (r ∈ dedupKeepFirst (effRanks ranks) ∧ queue_length_series_for_rank t r ≠ none))
      ∧ ((∃ df, (r, df) ∈ get_memory_bw_time_series t ranks)
        ↔ (r ∈ dedupKeepFirst (effRanks ranks) ∧ memory_bw_series_for_rank t r ≠ none)) := by
  intro t ranks r
  exact ⟨mem_rank_result_map (queue_length_series_for_rank t) _ r,
    mem_rank_result_map (memory_bw_series_for_rank t) _ r⟩

/-- C4: a qualifying memory event of duration 0 gets its end delta at
`start + 1` — exactly where a duration-1 event's end delta sits — and an
end delta is never at the same instant as the event's own start delta. -/
theorem zero_duration_end_delta :
    ∀ (ch : Int → String) (e : Event),
      (e.dur = 0 → (endDelta ch e).ts = e.ts + 1)
      ∧ (startDelta ch e).ts < (endDelta ch e).ts
      ∧ (endDelta ch { e with dur := 0 }).ts = (endDelta ch { e with dur := 1 }).ts := by
  intro ch e
  refine ⟨?_, ?_, ?_⟩
  · intro h0
    simp [endDelta, durFix, h0]
  · simp only [startDelta, endDelta, durFix]
    split <;> omega
  · simp [endDelta, durFix]

/-- Witness for C4 at a concrete zero-duration event. -/
theorem zero_duration_end_delta_witness :
    (endDelta (fun _ => "MemcpyHtoD") ⟨1, 0, 0, 7, 0, 0, 300, 0, 0, 4⟩).ts = 0 + 1 :=
  (zero_duration_end_delta (fun _ => "MemcpyHtoD") ⟨1, 0, 0, 7, 0, 0, 300, 0, 0, 4⟩).1 rfl

theorem map_eq_flatMap_singleton (f : α → β) (l : List α) :
    l.map f = l.flatMap (fun a => [f a]) := by
  induction l with
  | nil => rfl
  | cons a l ih => simp [ih]

theorem filter_flatMap_key {α β : Type} (key : α → Nat) (keyb : β → Nat)
    (f : α → List β) (hf : ∀ a b, b ∈ f a → keyb b = key a)
    {l : List α} (hnd : (l.map key).Nodup) {e : α} (he : e ∈ l) :
    (l.flatMap f).filter (fun b => keyb b == key e) = f e := by
  induction l with
  | nil => cases he
  | cons a as ih =>
    rw [List.flatMap_cons, List.filter_append]
    rw [List.map_cons, List.nodup_cons] at hnd
    obtain ⟨hka, hnd2⟩ := hnd
    rcases List.mem_cons.mp he with rfl | he2
    · have h1 : (f e).filter (fun b => keyb b == key e) = f e := by
        rw [List.filter_eq_self]
        intro b hb
        simp [hf e b hb]
      have h2 : (as.flatMap f).filter (fun b => keyb b == key e) = [] := by
        rw [List.filter_eq_nil_iff]
        intro b hb
        obtain ⟨a2, ha2, hba2⟩ := List.mem_flatMap.mp hb
        have : keyb b = key a2 := hf a2 b hba2
        have hne : key a2 ≠ key e := by
          intro hcontra
          exact hka (hcontra ▸ List.mem_map_of_mem key ha2)
        simp [this, hne]
      rw [h1, h2, List.append_nil]
    · have h1 : (f a).filter (fun b => keyb b == key e) = [] := by
        rw [List.filter_eq_nil_iff]
        intro b hb
        have : keyb b = key a := hf a b hb
        have hne : key a ≠ key e := by
          intro hcontra
          exact hka (hcontra ▸ List.mem_map_of_mem key he2)
        simp [this, hne]
      rw [h1, List.nil_append]
      exact ih hnd2 he2

theorem joinOnCorrelation_fields (gpu : List Event) (a : Event) (b : QDelta)
    (hb : b ∈ joinOnCorrelation gpu a) : b.index = a.index ∧ b.ts = a.ts ∧ b.queue = 1 := by
  unfold joinOnCorrelation at hb
  cases hfilter : gpu.filter (fun g => g.correlation == a.correlation) with
  | nil =>
    rw [hfilter] at hb
    simp only [List.mem_singleton] at hb
    rw [hb]
    exact ⟨rfl, rfl, rfl⟩
  | cons m ms =>
    rw [hfilter] at hb
    simp only [List.mem_map] at hb
    obtain ⟨g2, hg2, hbg⟩ := hb
    rw [← hbg]
    exact ⟨rfl, rfl, rfl⟩

theorem nodup_index_sublist {tr l : List Event} (hsub : l.Sublist tr)
    (hnd : (tr.map (fun x => x.index)).Nodup) : (l.map (fun x => x.index)).Nodup :=
  hnd.sublist (hsub.map _)

/-- C2: under unique event indices, an event matching one of the three
enqueue names with `index_correlation > 0` contributes exactly one `+1`
delta row, at its own timestamp, and that row carries the stream, pid and
tid of the device-side event sharing its correlation id; an event with
`stream ≠ -1` contributes exactly one `-1` delta row at its own
timestamp, carrying its own stream, pid and tid. -/
theorem enqueue_and_kernel_delta_rows :
    (∀ (ids : SymIds) (tr : List Event) (e g : Event),
      (tr.map (fun x => x.index)).Nodup → e ∈ tr →
      isRuntimeLaunchName ids e = true → 0 < e.index_correlation →
      (gpu_kernels tr).filter (fun k => k.correlation == e.correlation) = [g] →
      (merged_df ids tr).filter (fun r => r.index == e.index && r.queue == 1)
        = [⟨e.index, e.ts, 1, some g.stream, some g.pid, some g.tid⟩])
    ∧ (∀ (ids : SymIds) (tr : List Event) (e : Event),
      (tr.map (fun x => x.index)).Nodup → e ∈ tr → e.stream ≠ -1 →
      (merged_df ids tr).filter (fun r => r.index == e.index && r.queue == -1)
        = [gpuDelta e]) := by
  constructor
  · intro ids tr e g hnd he hname hcorr hg
    have hperm : ((merged_df ids tr).filter
          (fun r => r.index == e.index && r.queue == 1)).Perm
        ((((runtime_calls ids tr).flatMap (joinOnCorrelation (gpu_kernels tr)))
            ++ (gpu_kernels tr).map gpuDelta).filter
          (fun r => r.index == e.index && r.queue == 1)) :=
      (sortLe_perm qTsLe _).filter _
    rw [List.filter_append] at hperm
    have hG : ((gpu_kernels tr).map gpuDelta).filter
        (fun r => r.index == e.index && r.queue == 1) = [] := by
      rw [List.filter_eq_nil_iff]
      intro b hb
      obtain ⟨k, hk, hbk⟩ := List.mem_map.mp hb
      rw [← hbk]
      simp [gpuDelta, show ((-1 : Int) == 1) = false from rfl]
    have hcong : ∀ b ∈ (runtime_calls ids tr).flatMap (joinOnCorrelation (gpu_kernels tr)),
        (b.index == e.index && b.queue == 1) = (b.index == e.index) := by
      intro b hb
      obtain ⟨a, ha, hba⟩ := List.mem_flatMap.mp hb
      have hq1 := (joinOnCorrelation_fields _ a b hba).2.2
      simp [hq1]
    have hmem : e ∈ runtime_calls ids tr := by
      rw [runtime_calls, List.mem_filter]
      exact ⟨he, by simp [hname, hcorr]⟩
    have hnd2 : ((runtime_calls ids tr).map (fun x => x.index)).Nodup :=
      nodup_index_sublist (List.filter_sublist tr) hnd
    have hRT : ((runtime_calls ids tr).flatMap
          (joinOnCorrelation (gpu_kernels tr))).filter
        (fun r => r.index == e.index && r.queue == 1)
        = joinOnCorrelation (gpu_kernels tr) e := by
      rw [List.filter_congr hcong]
      exact filter_flatMap_key (fun x => x.index) (fun r => r.index)
        (joinOnCorrelation (gpu_kernels tr))
        (fun a b hb => (joinOnCorrelation_fields _ a b hb).1) hnd2 hmem
    rw [hG, hRT, List.append_nil] at hperm
    have hjoin : joinOnCorrelation (gpu_kernels tr) e
        = [⟨e.index, e.ts, 1, some g.stream, some g.pid, some g.tid⟩] := by
      unfold joinOnCorrelation
      rw [hg]
      simp
    rw [hjoin] at hperm
    exact List.perm_singleton.mp hperm
  · intro ids tr e hnd he hs
    have hperm : ((merged_df ids tr).filter
          (fun r => r.index == e.index && r.queue == -1)).Perm
        ((((runtime_calls ids tr).flatMap (joinOnCorrelation (gpu_kernels tr)))
            ++ (gpu_kernels tr).map gpuDelta).filter
          (fun r => r.index == e.index && r.queue == -1)) :=
      (sortLe_perm qTsLe _).filter _
    rw [List.filter_append] at hperm
    have hRT : ((runtime_calls ids tr).flatMap
          (joinOnCorrelation (gpu_kernels tr))).filter
        (fun r => r.index == e.index && r.queue == -1) = [] := by
      rw [List.filter_eq_nil_iff]
      intro b hb
      obtain ⟨a, ha, hba⟩ := List.mem_flatMap.mp hb
      have hq1 := (joinOnCorrelation_fields _ a b hba).2.2
      simp [hq1, show ((1 : Int) == -1) = false from rfl]
    have hmem : e ∈ gpu_kernels tr := by
      rw [gpu_kernels, List.mem_filter]
      refine ⟨he, ?_⟩
      simp [bne_iff_ne, hs]
    have hnd2 : ((gpu_kernels tr).map (fun x => x.index)).Nodup :=
      nodup_index_sublist (List.filter_sublist tr) hnd
    have hG : ((gpu_kernels tr).map gpuDelta).filter
        (fun r => r.index == e.index && r.queue == -1) = [gpuDelta e] := by
      have hcong : ∀ b ∈ (gpu_kernels tr).map gpuDelta,
          (b.index == e.index && b.queue == -1) = (b.index == e.index) := by
        intro b hb
        obtain ⟨k, hk, hbk⟩ := List.mem_map.mp hb
        rw [← hbk]
        simp [gpuDelta]
      rw [List.filter_congr hcong, map_eq_flatMap_singleton]
      exact filter_flatMap_key (fun x => x.index) (fun r => r.index)
        (fun k => [gpuDelta k])
        (fun a b hb => by rw [List.mem_singleton.mp hb]; rfl) hnd2 hmem
    rw [hRT, hG, List.nil_append] at hperm
    exact List.perm_singleton.mp hperm

/-- Witness for C2 on the Scenario A trace: the enqueue at ts 10 yields
one `+1` row carrying the device event's stream/pid/tid, and the device
kernel at ts 15 yields one `-1` row. -/
theorem enqueue_and_kernel_delta_rows_witness :
    (merged_df scenarioIds [evA1, evA2, evA3, evA4]).filter
        (fun r => r.index == evA1.index && r.queue == 1)
      = [⟨evA1.index, evA1.ts, 1, some evA3.stream, some evA3.pid, some evA3.tid⟩]
    ∧ (merged_df scenarioIds [evA1, evA2, evA3, evA4]).filter
        (fun r => r.index == evA3.index && r.queue == -1) = [gpuDelta evA3] :=
  ⟨enqueue_and_kernel_delta_rows.1 scenarioIds [evA1, evA2, evA3, evA4] evA1 evA3
      (by decide) (by decide) (by decide) (by decide) (by decide),
    enqueue_and_kernel_delta_rows.2 scenarioIds [evA1, evA2, evA3, evA4] evA3
      (by decide) (by decide) (by decide)⟩

theorem mem_filterMap_sortLe {le : α → α → Bool} {f : α → Option β} {l : List α} {x : β} :
    x ∈ (sortLe le l).filterMap f ↔ x ∈ l.filterMap f := by
  simp only [List.mem_filterMap, (sortLe_perm le l).mem_iff]

/-- C3: a host-side enqueue call whose correlation id matches no
device-side event contributes no delta to any stream: the queue-length
builder's output on a trace containing such an event equals its output on
the same trace with that event removed (and no error is possible — the
builder is a total function). -/
theorem unmatched_enqueue_no_effect :
    ∀ (ids : SymIds) (A B : List Event) (e : Event),
      isRuntimeLaunchName ids e = true → 0 < e.index_correlation → e.stream = -1 →
      (∀ k ∈ A ++ B, k.stream ≠ -1 → k.correlation ≠ e.correlation) →
      queue_length_series_df ids (A ++ e :: B) = queue_length_series_df ids (A ++ B) := by
  intro ids A B e hname hcorr hs hmiss
  have hgpu : gpu_kernels (A ++ e :: B) = gpu_kernels (A ++ B) := by
    simp [gpu_kernels, List.filter_append, List.filter_cons, hs]
  have hrc : runtime_calls ids (A ++ e :: B)
      = runtime_calls ids A ++ e :: runtime_calls ids B := by
    simp [runtime_calls, List.filter_append, List.filter_cons, hname, hcorr]
  have hrc2 : runtime_calls ids (A ++ B) = runtime_calls ids A ++ runtime_calls ids B := by
    simp [runtime_calls, List.filter_append]
  have hnone : joinOnCorrelation (gpu_kernels (A ++ B)) e
      = [⟨e.index, e.ts, 1, none, none, none⟩] := by
    have hfil : (gpu_kernels (A ++ B)).filter (fun g => g.correlation == e.correlation)
        = [] := by
      rw [List.filter_eq_nil_iff]
      intro k hk
      have hk0 := hk
      unfold gpu_kernels at hk0
      have hk1 : k ∈ A ++ B := List.mem_of_mem_filter hk0
      have hk2 : k.stream ≠ -1 := by
        have := (List.mem_filter.mp hk0).2
        simpa [bne_iff_ne] using this
      simp [hmiss k hk1 hk2]
    unfold joinOnCorrelation
    rw [hfil]
  have hpre : ((runtime_calls ids (A ++ e :: B)).flatMap
        (joinOnCorrelation (gpu_kernels (A ++ e :: B)))
        ++ (gpu_kernels (A ++ e :: B)).map gpuDelta)
      = ((runtime_calls ids A).flatMap (joinOnCorrelation (gpu_kernels (A ++ B)))
          ++ (⟨e.index, e.ts, 1, none, none, none⟩
            :: (runtime_calls ids B).flatMap (joinOnCorrelation (gpu_kernels (A ++ B)))
          ++ (gpu_kernels (A ++ B)).map gpuDelta)) := by
    rw [hgpu, hrc, List.flatMap_append, List.flatMap_cons, hnone]
    simp [List.append_assoc]
  have hpre2 : ((runtime_calls ids (A ++ B)).flatMap
        (joinOnCorrelation (gpu_kernels (A ++ B)))
        ++ (gpu_kernels (A ++ B)).map gpuDelta)
      = ((runtime_calls ids A).flatMap (joinOnCorrelation (gpu_kernels (A ++ B)))
          ++ ((runtime_calls ids B).flatMap (joinOnCorrelation (gpu_kernels (A ++ B)))
          ++ (gpu_kernels (A ++ B)).map gpuDelta)) := by
    rw [hrc2, List.flatMap_append]
    simp [List.append_assoc]
  have hgroups : ∀ s : Int,
      queueGroupRows ids (A ++ e :: B) s = queueGroupRows ids (A ++ B) s := by
    intro s
    unfold queueGroupRows merged_df
    rw [filter_sortLe qTsLe_total qTsLe_trans, filter_sortLe qTsLe_total qTsLe_trans]
    rw [hpre, hpre2]
    congr 1
    rw [List.filter_append, List.filter_append, List.filter_cons]
    have : ((⟨e.index, e.ts, 1, none, none, none⟩ : QDelta).stream == some s) = false := rfl
    simp [this]
  have hkeys : streamKeys ids (A ++ e :: B) = streamKeys ids (A ++ B) := by
    unfold streamKeys
    apply sortLe_int_eq_of_mem_iff (nodup_dedupKeepFirst _) (nodup_dedupKeepFirst _)
    intro x
    rw [mem_dedupKeepFirst, mem_dedupKeepFirst]
    unfold merged_df
    rw [mem_filterMap_sortLe, mem_filterMap_sortLe, hpre, hpre2]
    simp only [List.mem_filterMap, List.mem_append, List.mem_cons]
    constructor
    · rintro ⟨r, hr1 | (hr2 | hr3), hrs⟩
      · exact ⟨r, Or.inl hr1, hrs⟩
      · rcases hr2 with hr2a | hr2b
        · rw [hr2a] at hrs
          cases hrs
        · exact ⟨r, Or.inr (Or.inl hr2b), hrs⟩
      · exact ⟨r, Or.inr (Or.inr hr3), hrs⟩
    · rintro ⟨r, hr1 | (hr2 | hr3), hrs⟩
      · exact ⟨r, Or.inl hr1, hrs⟩
      · exact ⟨r, Or.inr (Or.inl (Or.inr hr2)), hrs⟩
      · exact ⟨r, Or.inr (Or.inr hr3), hrs⟩
  simp only [queue_length_series_df, hkeys, hgroups]

/-- Witness for C3: removing an enqueue call whose correlation id (5)
matches no device-side event leaves the builder's output unchanged. -/
theorem unmatched_enqueue_no_effect_witness :
    queue_length_series_df scenarioIds
        ([] ++ (⟨1, 10, 0, 1, 2, -1, 100, 5, 3, 0⟩ : Event)
          :: [⟨2, 15, 1, 7, 0, 0, 200, 9, 0, 0⟩])
      = queue_length_series_df scenarioIds ([] ++ [⟨2, 15, 1, 7, 0, 0, 200, 9, 0, 0⟩]) :=
  unmatched_enqueue_no_effect scenarioIds [] [⟨2, 15, 1, 7, 0, 0, 200, 9, 0, 0⟩]
    ⟨1, 10, 0, 1, 2, -1, 100, 5, 3, 0⟩ (by decide) (by decide) (by decide) (by decide)

theorem elim_of_map_eq_some {o : Option α} {f : α → β} {d v : β}
    (h : o.map f = some v) : o.elim d f = v := by
  cases o with
  | none => simp at h
  | some a => simpa using h

theorem bwLastVal_cumsum (g : List BWDelta) :
    ((cumsumBW 0 g).getLast?).elim 0 (fun r => r.memory_bw_gbps)
      = (g.map (fun d => d.memory_bw_gbps)).sum := by
  cases g with
  | nil => simp [cumsumBW]
  | cons r rs =>
    have h := cumsumBW_getLast 0 (r :: rs)
    rcases hgl : (r :: rs).getLast? with _ | x
    · rw [List.getLast?_eq_none_iff] at hgl
      cases hgl
    · rw [hgl] at h
      simp only [Option.map_some'] at h
      exact (elim_of_map_eq_some h).trans (zero_add _)


theorem sum_three_filters (ch : Int → String) (c : String) (τ : Int) :
    ∀ M : List Event,
      ((M.filter (fun m => decide (m.ts ≤ τ) && (ch m.name == c))).map
          (fun m => m.memory_bw_gbps)).sum
        + ((M.filter (fun m => decide (m.ts + (durFix m : Int) ≤ τ) && (ch m.name == c))).map
            (fun m => -m.memory_bw_gbps)).sum
      = ((M.filter (fun e => ch e.name == c && decide (e.ts ≤ τ)
            && decide (τ < e.ts + (durFix e : Int)))).map (fun e => e.memory_bw_gbps)).sum := by
  intro M
  induction M with
  | nil => simp
  | cons m ms ih =>
    have hdur : (0 : Int) ≤ (durFix m : Int) := Int.natCast_nonneg _
    by_cases hc : ch m.name = c
    · by_cases h2 : m.ts ≤ τ
      · by_cases h3 : m.ts + (durFix m : Int) ≤ τ
        · have hnin : ¬(τ < m.ts + (durFix m : Int)) := by omega
          have c1 : (decide (m.ts ≤ τ) && (ch m.name == c)) = true := by simp [h2, hc]
          have c2 : (decide (m.ts + (durFix m : Int) ≤ τ) && (ch m.name == c)) = true := by
            simp [h3, hc]
          have c3 : ¬(ch m.name == c && decide (m.ts ≤ τ)
              && decide (τ < m.ts + (durFix m : Int))) = true := by simp [hnin]
          rw [List.filter_cons_of_pos (p := fun m : Event => decide (m.ts ≤ τ) && (ch m.name == c)) c1,
            List.filter_cons_of_pos (p := fun m : Event => decide (m.ts + (durFix m : Int) ≤ τ) && (ch m.name == c)) c2,
            List.filter_cons_of_neg (p := fun e : Event => ch e.name == c && decide (e.ts ≤ τ) && decide (τ < e.ts + (durFix e : Int))) c3]
          simp only [List.map_cons, List.sum_cons]
          linarith [ih]
        · have hin : τ < m.ts + (durFix m : Int) := by omega
          have c1 : (decide (m.ts ≤ τ) && (ch m.name == c)) = true := by simp [h2, hc]
          have c2 : ¬(decide (m.ts + (durFix m : Int) ≤ τ) && (ch m.name == c)) = true := by
            simp [h3]
          have c3 : (ch m.name == c && decide (m.ts ≤ τ)
              && decide (τ < m.ts + (durFix m : Int))) = true := by simp [hc, h2, hin]
          rw [List.filter_cons_of_pos (p := fun m : Event => decide (m.ts ≤ τ) && (ch m.name == c)) c1,
            List.filter_cons_of_neg (p := fun m : Event => decide (m.ts + (durFix m : Int) ≤ τ) && (ch m.name == c)) c2,
            List.filter_cons_of_pos (p := fun e : Event => ch e.name == c && decide (e.ts ≤ τ) && decide (τ < e.ts + (durFix e : Int))) c3]
          simp only [List.map_cons, List.sum_cons]
          linarith [ih]
      · have h3 : ¬(m.ts + (durFix m : Int) ≤ τ) := by omega
        have c1 : ¬(decide (m.ts ≤ τ) && (ch m.name == c)) = true := by simp [h2]
        have c2 : ¬(decide (m.ts + (durFix m : Int) ≤ τ) && (ch m.name == c)) = true := by
          simp [h3]
        have c3 : ¬(ch m.name == c && decide (m.ts ≤ τ)
            && decide (τ < m.ts + (durFix m : Int))) = true := by simp [h2]
        rw [List.filter_cons_of_neg (p := fun m : Event => decide (m.ts ≤ τ) && (ch m.name == c)) c1,
          List.filter_cons_of_neg (p := fun m : Event => decide (m.ts + (durFix m : Int) ≤ τ) && (ch m.name == c)) c2,
          List.filter_cons_of_neg (p := fun e : Event => ch e.name == c && decide (e.ts ≤ τ) && decide (τ < e.ts + (durFix e : Int))) c3]
        exact ih
    · have c1 : ¬(decide (m.ts ≤ τ) && (ch m.name == c)) = true := by simp [hc]
      have c2 : ¬(decide (m.ts + (durFix m : Int) ≤ τ) && (ch m.name == c)) = true := by
        simp [hc]
      have c3 : ¬(ch m.name == c && decide (m.ts ≤ τ)
          && decide (τ < m.ts + (durFix m : Int))) = true := by simp [hc]
      rw [List.filter_cons_of_neg (p := fun m : Event => decide (m.ts ≤ τ) && (ch m.name == c)) c1,
        List.filter_cons_of_neg (p := fun m : Event => decide (m.ts + (durFix m : Int) ≤ τ) && (ch m.name == c)) c2,
        List.filter_cons_of_neg (p := fun e : Event => ch e.name == c && decide (e.ts ≤ τ) && decide (τ < e.ts + (durFix e : Int))) c3]
      exact ih

theorem bwValueAt_eq_inflight (isMem : Int → Bool) (ch : Int → String) (tdf : List Event)
    (c : String) (τ : Int) :
    bwValueAt (cumsumBW 0 (bwGroupRows isMem ch tdf c)) τ = inFlightBW isMem ch tdf c τ := by
  have hsorted : (bwGroupRows isMem ch tdf c).Pairwise (fun x y => bwTsLe x y = true) :=
    (pairwise_sortLe bwTsLe_total bwTsLe_trans _).sublist (List.filter_sublist _)
  unfold bwValueAt
  rw [filter_cumsumBW_le τ 0 hsorted, bwLastVal_cumsum]
  unfold bwGroupRows membw_time_series
  rw [List.filter_filter]
  have hp := ((((sortLe_perm bwTsLe
      ((memcpy_kernels isMem tdf).map (startDelta ch)
        ++ (memcpy_kernels isMem tdf).map (endDelta ch))).filter
      (fun a => decide (a.ts ≤ τ) && (a.name == c))).map
      (fun d => d.memory_bw_gbps)).sum_eq)
  rw [hp, List.filter_append, List.map_append, List.sum_append, List.filter_map,
    List.filter_map, List.map_map, List.map_map]
  unfold inFlightBW
  have h3 := sum_three_filters ch c τ (memcpy_kernels isMem tdf)
  simpa [Function.comp, startDelta, endDelta] using h3

theorem scenarioC_series : memory_bw_series_for_rank scenarioCTrace 0
    = some [⟨0, 7, "MemcpyHtoD", 4⟩, ⟨5, 7, "MemcpyHtoD", 10⟩,
      ⟨10, 7, "MemcpyHtoD", 6⟩, ⟨15, 7, "MemcpyHtoD", 0⟩] := by
  norm_num [memory_bw_series_for_rank, memory_bw_series_df, channelKeys, membw_time_series,
    memcpy_kernels, gpu_kernels, scenarioCTrace, evC1, evC2, startDelta, endDelta, durFix,
    sortLe, insertLe, bwTsLe, stringLe, dedupKeepFirst, dedupAux, bwGroupRows, cumsumBW]

/-- C5: the memory-bandwidth builder emits exactly one `+bandwidth` delta
at each qualifying event's start and one `-bandwidth` delta at
`start + duration` (two rows per event, as a multiset), the series value
at any time `τ` equals the sum of the bandwidths of the transfers in
flight on the channel at `τ`, and on the Scenario C trace the channel
series is exactly (0,4), (5,10), (10,6), (15,0). -/
theorem membw_two_deltas_and_inflight_value :
    (∀ (isMem : Int → Bool) (ch : Int → String) (tdf : List Event),
      (membw_time_series isMem ch tdf).Perm
        ((memcpy_kernels isMem tdf).map (startDelta ch)
          ++ (memcpy_kernels isMem tdf).map (endDelta ch)))
    ∧ (∀ (ch : Int → String) (e : Event),
        (startDelta ch e).ts = e.ts
          ∧ (startDelta ch e).memory_bw_gbps = e.memory_bw_gbps
          ∧ (endDelta ch e).ts = e.ts + durFix e
          ∧ (endDelta ch e).memory_bw_gbps = -e.memory_bw_gbps)
    ∧ (∀ (isMem : Int → Bool) (ch : Int → String) (tdf : List Event) (c : String) (τ : Int),
        bwValueAt (cumsumBW 0 (bwGroupRows isMem ch tdf c)) τ = inFlightBW isMem ch tdf c τ)
    ∧ (memory_bw_series_for_rank scenarioCTrace 0).map
        (List.map (fun r => (r.ts, r.memory_bw_gbps)))
      = some [(0, 4), (5, 10), (10, 6), (15, 0)] := by
  refine ⟨?_, ?_, bwValueAt_eq_inflight, by rw [scenarioC_series]; rfl⟩
  · intro isMem ch tdf
    exact sortLe_perm bwTsLe _
  · intro ch e
    exact ⟨rfl, rfl, rfl, rfl⟩

theorem scenarioD_ts : get_memory_bw_time_series scenarioCTrace (some [0])
    = [(0, [⟨0, 7, "MemcpyHtoD", 4⟩, ⟨5, 7, "MemcpyHtoD", 10⟩,
        ⟨10, 7, "MemcpyHtoD", 6⟩, ⟨15, 7, "MemcpyHtoD", 0⟩])] := by
  unfold get_memory_bw_time_series
  norm_num [effRanks, dedupKeepFirst, dedupAux, List.filterMap_cons, scenarioC_series]

theorem foldl_min_mem (vs : List Rat) : ∀ v : Rat, List.foldl min v vs ∈ v :: vs := by
  induction vs with
  | nil =>
    intro v
    simp
  | cons w ws ih =>
    intro v
    rw [List.foldl_cons]
    rcases List.mem_cons.mp (ih (min v w)) with h1 | h1
    · rcases min_choice v w with h2 | h2 <;> rw [h1, h2] <;> simp
    · exact List.mem_cons_of_mem _ (List.mem_cons_of_mem _ h1)

theorem foldl_min_le (vs : List Rat) : ∀ v : Rat, ∀ w ∈ v :: vs, List.foldl min v vs ≤ w := by
  induction vs with
  | nil =>
    intro v w hw
    rw [List.mem_singleton.mp hw]
    simp
  | cons u us ih =>
    intro v w hw
    rw [List.foldl_cons]
    have hhead : List.foldl min (min v u) us ≤ min v u :=
      ih (min v u) (min v u) (List.mem_cons_self _ _)
    rcases List.mem_cons.mp hw with hwv | hw2
    · rw [hwv]
      exact le_trans hhead (min_le_left v u)
    · rcases List.mem_cons.mp hw2 with hwu | hw3
      · rw [hwu]
        exact le_trans hhead (min_le_right v u)
      · exact ih (min v u) w (List.mem_cons_of_mem _ hw3)

theorem foldl_max_mem (vs : List Rat) : ∀ v : Rat, List.foldl max v vs ∈ v :: vs := by
  induction vs with
  | nil =>
    intro v
    simp
  | cons w ws ih =>
    intro v
    rw [List.foldl_cons]
    rcases List.mem_cons.mp (ih (max v w)) with h1 | h1
    · rcases max_choice v w with h2 | h2 <;> rw [h1, h2] <;> simp
    · exact List.mem_cons_of_mem _ (List.mem_cons_of_mem _ h1)

theorem foldl_max_le (vs : List Rat) : ∀ v : Rat, ∀ w ∈ v :: vs, w ≤ List.foldl max v vs := by
  induction vs with
  | nil =>
    intro v w hw
    rw [List.mem_singleton.mp hw]
    simp
  | cons u us ih =>
    intro v w hw
    rw [List.foldl_cons]
    have hhead : max v u ≤ List.foldl max (max v u) us :=
      ih (max v u) (max v u) (List.mem_cons_self _ _)
    rcases List.mem_cons.mp hw with hwv | hw2
    · rw [hwv]
      exact le_trans (le_max_left v u) hhead
    · rcases List.mem_cons.mp hw2 with hwu | hw3
      · rw [hwu]
        exact le_trans (le_max_right v u) hhead
      · exact ih (max v u) w (List.mem_cons_of_mem _ hw3)

/-- C8: the memory-bandwidth summary is built from exactly the strictly
positive rows of each rank's series: every summary row is the describe
record of the positive rows of its (rank, channel) group; describe
reports the count, mean, min and max of that value column (min and max
being a true minimum and maximum); and on Scenario C's channel the
summary excludes the (15, 0) row and reports count 3, min 4, max 10. -/
theorem membw_summary_positive_stats :
    (∀ (rank : Int) (df : List BWRow) (row : SummaryRow),
      row ∈ memory_bw_summary_for_rank rank df →
      row = mkSummaryRow rank row.name
        (((df.filter (fun r => decide (0 < r.memory_bw_gbps))).filter
          (fun r => r.name == row.name)).map (fun r => r.memory_bw_gbps)))
    ∧ (∀ (rank : Int) (c : String) (vs : List Rat),
        (mkSummaryRow rank c vs).rank = rank
        ∧ (mkSummaryRow rank c vs).name = c
        ∧ (mkSummaryRow rank c vs).count = vs.length
        ∧ (mkSummaryRow rank c vs).mean = vs.sum / (vs.length : Rat)
        ∧ (mkSummaryRow rank c vs).min = ratMinList vs
        ∧ (mkSummaryRow rank c vs).max = ratMaxList vs)
    ∧ (∀ (v : Rat) (vs : List Rat),
        ratMinList (v :: vs) ∈ v :: vs ∧ ∀ w ∈ v :: vs, ratMinList (v :: vs) ≤ w)
    ∧ (∀ (v : Rat) (vs : List Rat),
        ratMaxList (v :: vs) ∈ v :: vs ∧ ∀ w ∈ v :: vs, w ≤ ratMaxList (v :: vs))
    ∧ (get_memory_bw_summary scenarioCTrace (some [0])).map (List.map
        (fun row => (row.rank, row.name, row.count, row.min, row.max)))
      = some [(0, "MemcpyHtoD", 3, 4, 10)] := by
  refine ⟨?_, ?_, ?_, ?_, ?_⟩
  · intro rank df row hrow
    unfold memory_bw_summary_for_rank at hrow
    obtain ⟨c, hc, heq⟩ := List.mem_map.mp hrow
    have hname : row.name = c := by
      rw [← heq]
      rfl
    rw [hname]
    exact heq.symm
  · intro rank c vs
    exact ⟨rfl, rfl, rfl, rfl, rfl, rfl⟩
  · intro v vs
    exact ⟨foldl_min_mem vs v, foldl_min_le vs v⟩
  · intro v vs
    exact ⟨foldl_max_mem vs v, foldl_max_le vs v⟩
  · unfold get_memory_bw_summary
    rw [scenarioD_ts]
    norm_num [memory_bw_summary_for_rank, mkSummaryRow, ratMinList, ratMaxList,
      sortLe, insertLe, stringLe, dedupKeepFirst, dedupAux, min_def, max_def]

/-- Witness for C8: the single summary row of a one-row positive series
is the describe record of that row's (positive) value column. -/
theorem membw_summary_positive_stats_witness :
    mkSummaryRow 0 "A" [(1 : Rat)]
      = mkSummaryRow 0 "A"
        (((([(⟨0, 7, "A", 1⟩ : BWRow)]).filter
            (fun r => decide (0 < r.memory_bw_gbps))).filter
          (fun r => r.name == "A")).map (fun r => r.memory_bw_gbps)) :=
  membw_summary_positive_stats.1 0 [⟨0, 7, "A", 1⟩] (mkSummaryRow 0 "A" [1])
    (by simp [memory_bw_summary_for_rank, dedupKeepFirst, dedupAux, sortLe, insertLe,
      stringLe])
